import Mathlib

/-!
# Verification of the enum upcast analysis (`EnumUpcastAnalysis.cpp`)

A shallow embedding of redex's `opt/optimize_enums/EnumUpcastAnalysis.cpp`:
the per-method abstract interpretation over register environments of sets of
types, the post-fixpoint upcast detector, and the `reject_unsafe_enums`
driver.  Definitions are translated from the C++ source; the lattice
plumbing (`EnumTypes`, `EnumTypeEnvironment`, the fixpoint engine) and the
IR facade (`gather_types`, `can_rename`, `is_clinit`, ...), whose code lives
outside the analyzed translation unit, are modelled from the specification's
description of them (each such definition carries a `Modelled from the
spec:` doc comment).

Conventions:
* `TypeId` stands for an interned `DexType*`; method and field references
  are records of their interned components.
* `std::unordered_set` iteration with commuting per-element insertions is
  modelled by its set of elements (`Finset`).
* C++ `always_assert` failure is modelled by `Option.none`; functions on the
  assertion-free paths return plain values.
* The concurrent walks (`walk::parallel::fields` / `methods`) are modelled
  as sequential folds in the order given by the classes list; claims about
  order independence compare folds over permuted lists.
-/

/-- Interned identifier of a `DexType*` (reference or primitive type). -/
abbrev TypeId := Nat

/-- Modelled from the spec: the IR layer's type facade (`is_primitive`,
`get_array_type`, `get_array_component_type`, the well-known types, and
`type_class` + `is_enum` fused into `isEnumClass`).  `arrayElem t` is
`get_array_type` (the element type of an array with every dimension
stripped, `none` on non-arrays); `arrayComponent t` is
`get_array_component_type` (one dimension stripped). -/
structure TypeSys where
  isPrimitive : TypeId → Bool
  arrayElem : TypeId → Option TypeId
  arrayComponent : TypeId → Option TypeId
  enumType : TypeId
  classType : TypeId
  stringType : TypeId
  stringBuilderType : TypeId
  objectType : TypeId
  boolType : TypeId
  intType : TypeId
  isEnumClass : TypeId → Bool

/-- `is_array t`: the IR reports a type as an array exactly when
`get_array_type` returns its element type. -/
def TypeSys.isArray (ts : TypeSys) (t : TypeId) : Bool :=
  (ts.arrayElem t).isSome

/-- A `DexProto`: return type and argument type list. -/
structure Proto where
  rtype : TypeId
  args : List TypeId
deriving DecidableEq, Repr

/-- A `DexMethodRef`: declaring class, name and proto. -/
structure MethodRef where
  cls : TypeId
  name : String
  proto : Proto
deriving DecidableEq, Repr

/-- A `DexFieldRef`: declaring class, name and field type. -/
structure FieldRef where
  cls : TypeId
  name : String
  type : TypeId
deriving DecidableEq, Repr

/-- The `Reason` diagnostic enumeration of `EnumUpcastAnalysis.cpp`.  It is
only logged by `TRACE`; it never affects the rejected set. -/
inductive Reason where
  | UNKNOWN
  | CAST_WHEN_RETURN
  | CAST_THIS_POINTER
  | CAST_PARAMETER
  | USED_AS_CLASS_OBJECT
  | CAST_CHECK_CAST
  | CAST_ISPUT_OBJECT
  | CAST_APUT_OBJECT
  | MULTI_ENUM_TYPES
  | UNSAFE_INVOCATION_ON_CANDIDATE_ENUM
deriving DecidableEq, Repr

/-- Modelled from the spec: the `EnumTypes` lattice element — bottom, or a
finite set of types.  (§4.1 allows omitting top: the transfer function never
materializes it.)  `elements` of bottom is empty. -/
inductive EnumTypes where
  | bot
  | finite (s : Finset TypeId)
deriving DecidableEq

/-- Modelled from the spec: `EnumTypes::elements()`. -/
def EnumTypes.elements : EnumTypes → Finset TypeId
  | .bot => ∅
  | .finite s => s

/-- Modelled from the spec: `EnumTypes::add`, inserting one type. -/
def EnumTypes.add : EnumTypes → TypeId → EnumTypes
  | .bot, t => .finite {t}
  | .finite s, t => .finite (insert t s)

/-- Modelled from the spec: join is set union with bottom as identity. -/
def EnumTypes.join : EnumTypes → EnumTypes → EnumTypes
  | .bot, e => e
  | e, .bot => e
  | .finite s, .finite t => .finite (s ∪ t)

/-- Modelled from the spec: `is_value` holds for any non-bottom element. -/
def EnumTypes.is_value : EnumTypes → Bool
  | .bot => false
  | .finite _ => true

/-- A virtual register, or the pseudo `RESULT_REGISTER`. -/
inductive Reg where
  | r (n : Nat)
  | RESULT
deriving DecidableEq, Repr

/-- Modelled from the spec: `EnumTypeEnvironment`, a register-to-`EnumTypes`
map whose unset registers are bottom.  The whole-environment bottom (an
unreachable block) is modelled as `Option Env` at the engine level. -/
abbrev Env := Reg → EnumTypes

/-- `EnumTypeEnvironment::set`. -/
def Env.set (env : Env) (reg : Reg) (v : EnumTypes) : Env :=
  Function.update env reg v

/-- The all-bottom environment (freshly constructed environment). -/
def Env.empty : Env := fun _ => .bot

/-- `discard_primitives`: the non-primitive elements of an `EnumTypes`. -/
def discardPrimitives (ts : TypeSys) (types : EnumTypes) : Finset TypeId :=
  types.elements.filter (fun t => ts.isPrimitive t = false)

/-- `EnumUpcastDetector::reject(DexType*, ...)`: insert `t` into the
rejected set iff it is a candidate. -/
def reject1 (cand : Finset TypeId) (t : TypeId) (rej : Finset TypeId) :
    Finset TypeId :=
  if t ∈ cand then insert t rej else rej

/-- `EnumUpcastDetector::reject` over a set of types: each element goes
through `reject1`; the insertions commute, so the loop over the
`unordered_set` is its set-level union. -/
def rejectSet (cand : Finset TypeId) (types rej : Finset TypeId) :
    Finset TypeId :=
  rej ∪ types.filter (· ∈ cand)

/-- `EnumUpcastDetector::reject_if_inconsistent`: if the required type is a
candidate, reject every non-primitive element different from it (and, when
one exists, the required type too — the `need_delete` flag); otherwise
reject every element.  The `Reason` argument is only logged. -/
def rejectIfInconsistent (ts : TypeSys) (cand : Finset TypeId)
    (types : EnumTypes) (required : TypeId) (rej : Finset TypeId)
    (_reason : Reason) : Finset TypeId :=
  if required ∈ cand then
    let bad := types.elements.filter
      (fun t => ts.isPrimitive t = false ∧ t ≠ required)
    if bad.Nonempty then reject1 cand required (rejectSet cand bad rej)
    else rej
  else
    rejectSet cand types.elements rej

/-- The IR instructions inspected by `analyze_instruction` and
`process_instruction`.  `other` stands for every remaining opcode, carrying
exactly the attributes the default switch case consults: whether it has a
dest (and its wideness), a type operand, and a `move-result-pseudo`. -/
inductive Insn where
  | loadParam (dest : Nat)
  | moveObject (dest src : Nat)
  | invokeStatic (m : MethodRef) (srcs : List Nat)
  | invokeSuper (m : MethodRef) (srcs : List Nat)
  | invokeDirect (m : MethodRef) (srcs : List Nat)
  | invokeInterface (m : MethodRef) (srcs : List Nat)
  | invokeVirtual (m : MethodRef) (srcs : List Nat)
  | constClass (t : TypeId)
  | checkCast (src : Nat) (t : TypeId)
  | moveResultObject (dest : Nat)
  | sgetObject (f : FieldRef)
  | igetObject (f : FieldRef) (src : Nat)
  | agetObject (arr idx : Nat)
  | aputObject (val arr idx : Nat)
  | iputObject (f : FieldRef) (val obj : Nat)
  | sputObject (f : FieldRef) (val : Nat)
  | returnObject (src : Nat)
  | other (hasDest : Bool) (dest : Nat) (isWide : Bool)
      (hasType : Bool) (t : TypeId) (pseudo : Bool)
deriving DecidableEq, Repr

/-- The detector's interned method-reference constant
`Ljava/lang/Enum;.equals:(Ljava/lang/Object;)Z`. -/
def ENUM_EQUALS_METHOD (ts : TypeSys) : MethodRef :=
  ⟨ts.enumType, "equals", ⟨ts.boolType, [ts.objectType]⟩⟩

/-- `Ljava/lang/Enum;.compareTo:(Ljava/lang/Enum;)I`. -/
def ENUM_COMPARETO_METHOD (ts : TypeSys) : MethodRef :=
  ⟨ts.enumType, "compareTo", ⟨ts.intType, [ts.enumType]⟩⟩

/-- `Ljava/lang/Enum;.toString:()Ljava/lang/String;`. -/
def ENUM_TOSTRING_METHOD (ts : TypeSys) : MethodRef :=
  ⟨ts.enumType, "toString", ⟨ts.stringType, []⟩⟩

/-- `Ljava/lang/Enum;.name:()Ljava/lang/String;`. -/
def ENUM_NAME_METHOD (ts : TypeSys) : MethodRef :=
  ⟨ts.enumType, "name", ⟨ts.stringType, []⟩⟩

/-- `Ljava/lang/Enum;.ordinal:()I`. -/
def ENUM_ORDINAL_METHOD (ts : TypeSys) : MethodRef :=
  ⟨ts.enumType, "ordinal", ⟨ts.intType, []⟩⟩

/-- `Ljava/lang/StringBuilder;.append:(Ljava/lang/Object;)Ljava/lang/StringBuilder;`. -/
def STRINGBUILDER_APPEND_METHOD (ts : TypeSys) : MethodRef :=
  ⟨ts.stringBuilderType, "append",
   ⟨ts.stringBuilderType, [ts.objectType]⟩⟩

/-- Modelled from the spec: libredex's `signatures_match` compares name and
proto of two method references (the declaring class is checked separately
by the caller). -/
def signaturesMatch (a b : MethodRef) : Prop :=
  a.name = b.name ∧ a.proto = b.proto

instance (a b : MethodRef) : Decidable (signaturesMatch a b) := by
  unfold signaturesMatch; infer_instance

/-- A method body: the dest registers of its leading `load-param`
instructions (`get_param_instructions`), and the CFG blocks. -/
structure Block where
  id : Nat
  insns : List Insn
  succs : List Nat
deriving DecidableEq, Repr

/-- An `IRCode`: `params` are the dest registers of the `load-param`
instructions, `blocks` the control-flow graph (`blocks.head` is the entry
block). -/
structure Code where
  params : List Nat
  blocks : List Block
deriving DecidableEq, Repr

/-- A `DexMethod` definition: its reference, staticness, renameability
(`can_rename`), and optional body. -/
structure Method where
  ref : MethodRef
  isStatic : Bool
  canRename : Bool
  code : Option Code
deriving DecidableEq, Repr

/-- A `DexField` definition: its reference and renameability. -/
structure FieldDef where
  ref : FieldRef
  canRename : Bool
deriving DecidableEq, Repr

/-- A `DexClass`: its fields and methods (`walk::parallel` iterates these). -/
structure DexClass where
  fields : List FieldDef
  methods : List Method
deriving DecidableEq, Repr

/-- The scope handed to `reject_unsafe_enums`. -/
structure Program where
  classes : List DexClass
deriving DecidableEq, Repr

/-- All fields of the scope, in class order (`walk::parallel::fields`). -/
def Program.allFields (P : Program) : List FieldDef :=
  P.classes.flatMap DexClass.fields

/-- All methods of the scope, in class order (`walk::parallel::methods`). -/
def Program.allMethods (P : Program) : List Method :=
  P.classes.flatMap DexClass.methods

/-- `EnumFixpointIterator::analyze_instruction`: the per-opcode abstract
transfer.  The destination is `RESULT_REGISTER` when the instruction is an
invoke or has a `move-result-pseudo`, else its declared dest; instructions
with neither leave the environment unchanged. -/
def analyzeInstruction (ts : TypeSys) (insn : Insn) (env : Env) : Env :=
  match insn with
  | .loadParam _ => env
  | .moveObject d s => env.set (.r d) (env (.r s))
  | .invokeStatic m _ | .invokeSuper m _ | .invokeDirect m _
  | .invokeInterface m _ | .invokeVirtual m _ =>
      env.set .RESULT (.finite {m.proto.rtype})
  | .constClass _ => env.set .RESULT (.finite {ts.classType})
  | .checkCast _ t => env.set .RESULT (.finite {t})
  | .moveResultObject d => env.set (.r d) (env .RESULT)
  | .sgetObject f =>
      if ts.isPrimitive f.type then env
      else env.set .RESULT (.finite {f.type})
  | .igetObject f _ =>
      if ts.isPrimitive f.type then env
      else env.set .RESULT (.finite {f.type})
  | .agetObject arr _ =>
      let types := ((env (.r arr)).elements.sort (· ≤ ·)).foldl
        (fun acc t =>
          match ts.arrayElem t with
          | some e => if ts.isPrimitive e then acc else acc.add e
          | none => acc)
        EnumTypes.bot
      env.set .RESULT types
  | .aputObject _ _ _ => env
  | .iputObject _ _ _ => env
  | .sputObject _ _ => env
  | .returnObject _ => env
  | .other hasDest d isWide hasType t pseudo =>
      if pseudo || hasDest then
        let dest := if pseudo then Reg.RESULT else Reg.r d
        let env1 := env.set dest (if hasType then .finite {t} else .bot)
        if hasDest && isWide then env1.set (.r (d + 1)) .bot else env1
      else env

/-- Modelled from the spec: libredex's `is_clinit` (name `<clinit>`). -/
def isClinit (m : Method) : Prop := m.ref.name = "<clinit>"

instance (m : Method) : Decidable (isClinit m) := by
  unfold isClinit; infer_instance

/-- Modelled from the spec: libredex's `is_init` (name `<init>`). -/
def isInit (m : Method) : Prop := m.ref.name = "<init>"

instance (m : Method) : Decidable (isInit m) := by
  unfold isInit; infer_instance

/-- Whether `r` resolves to a defined static method of the scope
(`method->is_def() && is_static(method)`). -/
def Program.isDefStatic (P : Program) (r : MethodRef) : Prop :=
  ∃ m ∈ P.allMethods, m.ref = r ∧ m.isStatic = true

instance (P : Program) (r : MethodRef) : Decidable (P.isDefStatic r) := by
  unfold Program.isDefStatic; infer_instance

/-- `is_static_method_on_enum_class`: the reference resolves to a defined
static method whose declaring class is an enum class. -/
def isStaticMethodOnEnumClass (ts : TypeSys) (P : Program)
    (r : MethodRef) : Prop :=
  P.isDefStatic r ∧ ts.isEnumClass r.cls = true

instance (ts : TypeSys) (P : Program) (r : MethodRef) :
    Decidable (isStaticMethodOnEnumClass ts P r) := by
  unfold isStaticMethodOnEnumClass; infer_instance

/-- `optimize_enums::is_enum_valueof`: a static enum-class method named
`valueOf` returning its declaring class and taking exactly one
`java.lang.String`. -/
def isEnumValueof (ts : TypeSys) (P : Program) (r : MethodRef) : Prop :=
  isStaticMethodOnEnumClass ts P r ∧ r.name = "valueOf" ∧
  r.cls = r.proto.rtype ∧ r.proto.args = [ts.stringType]

instance (ts : TypeSys) (P : Program) (r : MethodRef) :
    Decidable (isEnumValueof ts P r) := by
  unfold isEnumValueof; infer_instance

/-- `optimize_enums::is_enum_values`: a static enum-class method named
`values` with no arguments whose return type is an array with component
type equal to the declaring class. -/
def isEnumValues (ts : TypeSys) (P : Program) (r : MethodRef) : Prop :=
  isStaticMethodOnEnumClass ts P r ∧ r.name = "values" ∧
  r.proto.args = [] ∧ ts.arrayComponent r.proto.rtype = some r.cls

instance (ts : TypeSys) (P : Program) (r : MethodRef) :
    Decidable (isEnumValues ts P r) := by
  unfold isEnumValues; infer_instance

/-- `this_types.empty() ? nullptr : *this_types.begin()`: an element of the
set, if any.  (`unordered_set` iteration order is unspecified; any choice
gives the same detector result, see `cppCond_iff_singletons`.) -/
def firstElem (s : Finset TypeId) : Option TypeId :=
  if h : s.Nonempty then some (s.min' h) else none

/-- `this_type && that_type && this_type != that_type` on the two chosen
representatives. -/
def neqFirsts (a b : Option TypeId) : Bool :=
  match a, b with
  | some x, some y => x != y
  | _, _ => false

/-- The argument loop of `process_general_invocation`: pair each remaining
source register with its formal type and `reject_if_inconsistent` it. -/
def rejectArgs (ts : TypeSys) (cand : Finset TypeId) :
    List Nat → List TypeId → Env → Finset TypeId → Finset TypeId
  | s :: ss, t :: tts, env, rej =>
      rejectArgs ts cand ss tts env
        (rejectIfInconsistent ts cand (env (.r s)) t rej .CAST_PARAMETER)
  | _, _, _, rej => rej

/-- `EnumUpcastDetector::process_general_invocation`: reject a candidate
container of a non-static invocation, then check the receiver (when
present) and each argument against the signature.  `none` models the
arity assertion failing. -/
def processGeneralInvocation (ts : TypeSys) (cand : Finset TypeId)
    (isStaticInvoke : Bool) (callee : MethodRef) (srcs : List Nat)
    (env : Env) (rej : Finset TypeId) : Option (Finset TypeId) :=
  let container := callee.cls
  let rej1 :=
    if isStaticInvoke = false ∧ container ∈ cand then
      reject1 cand container rej
    else rej
  let args := callee.proto.args
  if srcs.length = args.length then
    some (rejectArgs ts cand srcs args env rej1)
  else if srcs.length = args.length + 1 then
    let rej2 := rejectIfInconsistent ts cand (env (.r (srcs.headD 0)))
      container rej1 .CAST_THIS_POINTER
    some (rejectArgs ts cand srcs.tail args env rej2)
  else none

/-- `EnumUpcastDetector::process_direct_invocation`: asserts the container
is not a candidate enum, then the general processing. -/
def processDirectInvocation (ts : TypeSys) (cand : Finset TypeId)
    (callee : MethodRef) (srcs : List Nat) (env : Env)
    (rej : Finset TypeId) : Option (Finset TypeId) :=
  if callee.cls ∈ cand then none
  else processGeneralInvocation ts cand false callee srcs env rej

/-- `EnumUpcastDetector::process_static_invocation`: skip
`CandidateEnum.values()` / `CandidateEnum.valueOf(String)`, else the
general processing. -/
def processStaticInvocation (ts : TypeSys) (P : Program)
    (cand : Finset TypeId) (callee : MethodRef) (srcs : List Nat)
    (env : Env) (rej : Finset TypeId) : Option (Finset TypeId) :=
  if callee.cls ∈ cand ∧
      (isEnumValues ts P callee ∨ isEnumValueof ts P callee) then
    some rej
  else processGeneralInvocation ts cand true callee srcs env rej

/-- `EnumUpcastDetector::process_virtual_invocation`: the safe-virtual-call
special cases (`equals`/`compareTo`, `toString`/`name`/`ordinal` on Enum or
a candidate enum, and `StringBuilder.append(Object)`), falling through to
the general processing. -/
def processVirtualInvocation (ts : TypeSys) (_P : Program)
    (cand : Finset TypeId) (callee : MethodRef) (srcs : List Nat)
    (env : Env) (rej : Finset TypeId) : Option (Finset TypeId) :=
  let container := callee.cls
  if container = ts.enumType ∨ container ∈ cand then
    let thisTypes := discardPrimitives ts (env (.r (srcs.headD 0)))
    if signaturesMatch callee (ENUM_EQUALS_METHOD ts) ∨
        signaturesMatch callee (ENUM_COMPARETO_METHOD ts) then
      let thatTypes := discardPrimitives ts (env (.r (srcs.getD 1 0)))
      if 1 < thisTypes.card ∨ 1 < thatTypes.card ∨
          neqFirsts (firstElem thisTypes) (firstElem thatTypes) = true then
        some (rejectSet cand thatTypes (rejectSet cand thisTypes rej))
      else some rej
    else if signaturesMatch callee (ENUM_TOSTRING_METHOD ts) ∨
        signaturesMatch callee (ENUM_NAME_METHOD ts) ∨
        signaturesMatch callee (ENUM_ORDINAL_METHOD ts) then
      if 1 < thisTypes.card then some (rejectSet cand thisTypes rej)
      else some rej
    else processGeneralInvocation ts cand false callee srcs env rej
  else if callee = STRINGBUILDER_APPEND_METHOD ts then
    let thatTypes := discardPrimitives ts (env (.r (srcs.getD 1 0)))
    if 1 < thatTypes.card then some (rejectSet cand thatTypes rej)
    else some rej
  else processGeneralInvocation ts cand false callee srcs env rej

/-- `EnumUpcastDetector::process_return_object`: asserts the source register
holds a value, then checks it against the method's return type. -/
def processReturnObject (ts : TypeSys) (cand : Finset TypeId) (m : Method)
    (src : Nat) (env : Env) (rej : Finset TypeId) : Option (Finset TypeId) :=
  if (env (.r src)).is_value = true then
    some (rejectIfInconsistent ts cand (env (.r src)) m.ref.proto.rtype rej
      .CAST_WHEN_RETURN)
  else none

/-- `EnumUpcastDetector::process_isput_object` (also used for
`sput-object`): the value register against the field's type. -/
def processIsputObject (ts : TypeSys) (cand : Finset TypeId) (f : FieldRef)
    (valReg : Nat) (env : Env) (rej : Finset TypeId) : Finset TypeId :=
  rejectIfInconsistent ts cand (env (.r valReg)) f.type rej
    .CAST_ISPUT_OBJECT

/-- The `acceptable_elem_types` of `process_aput_object`: non-primitive
element types of the array types inferred for the array register. -/
def acceptableElemTypes (ts : TypeSys) (arrayTypes : EnumTypes) :
    Finset TypeId :=
  (arrayTypes.elements.filter
    (fun t => ((ts.arrayElem t).map (fun e => !ts.isPrimitive e)).getD false
      = true)).image
    (fun t => (ts.arrayElem t).getD t)

/-- `EnumUpcastDetector::process_aput_object`: with more than one
acceptable element type reject everything involved; with exactly one,
check consistency against it; with none, do nothing. -/
def processAputObject (ts : TypeSys) (cand : Finset TypeId)
    (valReg arrReg : Nat) (env : Env) (rej : Finset TypeId) :
    Finset TypeId :=
  let arrayTypes := env (.r arrReg)
  let elemTypes := env (.r valReg)
  let acceptable := acceptableElemTypes ts arrayTypes
  if 1 < acceptable.card then
    rejectSet cand acceptable (rejectSet cand elemTypes.elements rej)
  else if h : acceptable.card = 1 then
    rejectIfInconsistent ts cand elemTypes
      (acceptable.min' (Finset.card_pos.mp (by omega))) rej .CAST_APUT_OBJECT
  else rej

/-- `EnumUpcastDetector::process_instruction`: the post-fixpoint per-opcode
dispatch.  `none` models an `always_assert` failure. -/
def processInstruction (ts : TypeSys) (P : Program) (cand : Finset TypeId)
    (m : Method) (insn : Insn) (env : Env) (rej : Finset TypeId) :
    Option (Finset TypeId) :=
  match insn with
  | .checkCast src t =>
      some (rejectIfInconsistent ts cand (env (.r src)) t rej
        .CAST_CHECK_CAST)
  | .constClass t => some (reject1 cand t rej)
  | .invokeInterface callee srcs | .invokeSuper callee srcs =>
      processGeneralInvocation ts cand false callee srcs env rej
  | .invokeDirect callee srcs =>
      processDirectInvocation ts cand callee srcs env rej
  | .invokeStatic callee srcs =>
      processStaticInvocation ts P cand callee srcs env rej
  | .invokeVirtual callee srcs =>
      processVirtualInvocation ts P cand callee srcs env rej
  | .returnObject src => processReturnObject ts cand m src env rej
  | .aputObject val arr _ =>
      some (processAputObject ts cand val arr env rej)
  | .igetObject f _ => if f.cls ∈ cand then none else some rej
  | .iputObject f val _ =>
      if f.cls ∈ cand then none
      else some (processIsputObject ts cand f val env rej)
  | .sputObject f val => some (processIsputObject ts cand f val env rej)
  | _ => some rej

/-- Seed the argument registers: each remaining `load-param` dest gets the
singleton of its formal parameter type. -/
def seedArgs (env : Env) : List Nat → List TypeId → Env
  | p :: ps, t :: tts => seedArgs (env.set (.r p) (.finite {t})) ps tts
  | _, _ => env

/-- `EnumFixpointIterator::gen_env`: counts the `load-param` instructions,
asserts the count equals `args.size() + has_this_pointer` (`none` on
failure), then seeds the this-pointer register with the declaring class and
each parameter register with its formal type. -/
def genEnv (m : Method) (c : Code) : Option Env :=
  let args := m.ref.proto.args
  let hasThis := m.isStatic = false
  if c.params.length = args.length + (if m.isStatic then 0 else 1) then
    if hasThis then
      match c.params with
      | p :: ps =>
          some (seedArgs (Env.empty.set (.r p) (.finite {m.ref.cls})) ps args)
      | [] => some (seedArgs Env.empty [] args)
    else some (seedArgs Env.empty c.params args)
  else none

/-- Join on whole environments (`Option Env`): `none` is the unreachable
(bottom) environment; otherwise the pointwise join. -/
def joinOptEnv : Option Env → Option Env → Option Env
  | none, e => e
  | e, none => e
  | some a, some b => some (fun reg => (a reg).join (b reg))

/-- The exit state of a block: sequentially apply the transfer to the
entry state. -/
def blockExit (ts : TypeSys) (b : Block) (entry : Env) : Env :=
  b.insns.foldl (fun e i => analyzeInstruction ts i e) entry

/-- Modelled from the spec: one round of the forward dataflow equations.
The entry block's state includes the seed `env0`; every block joins the
exits of its predecessors.  Blocks not in the CFG stay unreachable. -/
def engineRound (ts : TypeSys) (c : Code) (env0 : Env)
    (states : Nat → Option Env) : Nat → Option Env :=
  fun id =>
    match c.blocks.find? (fun b => b.id = id) with
    | none => none
    | some _ =>
        let fromPreds := c.blocks.foldl
          (fun acc p =>
            if id ∈ p.succs then
              joinOptEnv acc ((states p.id).map (blockExit ts p))
            else acc)
          none
        if (c.blocks.head?.map Block.id) = some id then
          joinOptEnv (some env0) fromPreds
        else fromPreds

/-- An upper bound on the number of rounds Kleene iteration needs: one
more than the longest strictly increasing chain of state vectors (blocks ×
registers × a finite universe of types).  Iterating past stabilization is
harmless because a fixpoint of `engineRound` stays fixed. -/
def engineFuel (c : Code) : Nat :=
  let insnCount := (c.blocks.map (fun b => b.insns.length)).sum
  let regBound := insnCount + c.params.length + 3
  let typeBound := insnCount + c.params.length + 4
  c.blocks.length * regBound * typeBound + 2

/-- Modelled from the spec: the fixpoint engine
(`EnumFixpointIterator::run`, a sparta forward monotone fixpoint):
iterate the dataflow equations from all-unreachable until they are stable;
`engineFuel` rounds suffice. -/
def engineRun (ts : TypeSys) (c : Code) (env0 : Env) :
    Nat → Option Env :=
  (engineRound ts c env0)^[engineFuel c] (fun _ => none)

/-- The inner loop of `EnumUpcastDetector::run`: replay the transfer
before processing each instruction, threading the rejected set;
`none` aborts on a failed assertion. -/
def detectBlock (ts : TypeSys) (P : Program) (cand : Finset TypeId)
    (m : Method) : List Insn → Env → Finset TypeId →
    Option (Finset TypeId)
  | [], _, rej => some rej
  | i :: rest, env, rej =>
      let env1 := analyzeInstruction ts i env
      match processInstruction ts P cand m i env1 rej with
      | none => none
      | some rej1 => detectBlock ts P cand m rest env1 rej1

/-- `EnumUpcastDetector::run`: for every block whose entry state is
reachable, walk its instructions. -/
def detectorRun (ts : TypeSys) (P : Program) (cand : Finset TypeId)
    (m : Method) (c : Code) (states : Nat → Option Env)
    (rej : Finset TypeId) : Option (Finset TypeId) :=
  c.blocks.foldlM
    (fun acc b =>
      match states b.id with
      | none => some acc
      | some env => detectBlock ts P cand m b.insns env acc)
    rej

/-- Modelled from the spec: `DexProto::gather_types` — the types named by a
proto (return type and argument types). -/
def protoGatherTypes (p : Proto) : List TypeId :=
  p.rtype :: p.args

/-- Modelled from the spec: the types an instruction names — its type
operand, or the shallow types of its field/method reference. -/
def Insn.namedTypes : Insn → List TypeId
  | .loadParam _ => []
  | .moveObject _ _ => []
  | .invokeStatic m _ | .invokeSuper m _ | .invokeDirect m _
  | .invokeInterface m _ | .invokeVirtual m _ =>
      m.cls :: m.proto.rtype :: m.proto.args
  | .constClass t => [t]
  | .checkCast _ t => [t]
  | .moveResultObject _ => []
  | .sgetObject f | .igetObject f _ => [f.cls, f.type]
  | .agetObject _ _ => []
  | .aputObject _ _ _ => []
  | .iputObject f _ _ | .sputObject f _ => [f.cls, f.type]
  | .returnObject _ => []
  | .other _ _ _ hasType t _ => if hasType then [t] else []

/-- Modelled from the spec: `DexMethod::gather_types` — all types named by
the method's proto and by its instructions. -/
def methodGatherTypes (m : Method) : List TypeId :=
  protoGatherTypes m.ref.proto ++
    (match m.code with
     | none => []
     | some c => (c.blocks.flatMap Block.insns).flatMap Insn.namedTypes)

/-- `if (is_array(t)) t = get_array_type(t);` — reduce an array type to
its element type. -/
def reduceArray (ts : TypeSys) (t : TypeId) : TypeId :=
  if ts.isArray t then (ts.arrayElem t).getD t else t

/-- `need_analyze`: a method needs the fixpoint/detector run iff it has
code and some gathered type (element type for arrays) is a live
candidate. -/
def needAnalyze (ts : TypeSys) (m : Method) (cand rej : Finset TypeId) :
    Prop :=
  m.code ≠ none ∧
  ∃ t ∈ methodGatherTypes m, reduceArray ts t ∈ cand ∧
    reduceArray ts t ∉ rej

instance (ts : TypeSys) (m : Method) (cand rej : Finset TypeId) :
    Decidable (needAnalyze ts m cand rej) := by
  unfold needAnalyze; infer_instance

/-- The `is_generated_enum_method` lambda of `reject_unsafe_enums`: a
`<clinit>`, `<init>`, `values()` or `valueOf(String)` of a candidate enum
class that has not already been rejected. -/
def isGeneratedEnumMethod (ts : TypeSys) (P : Program)
    (cand rej : Finset TypeId) (m : Method) : Prop :=
  m.ref.cls ∈ cand ∧ m.ref.cls ∉ rej ∧
  (isClinit m ∨ isInit m ∨ isEnumValues ts P m.ref ∨
    isEnumValueof ts P m.ref)

instance (ts : TypeSys) (P : Program) (cand rej : Finset TypeId)
    (m : Method) : Decidable (isGeneratedEnumMethod ts P cand rej m) := by
  unfold isGeneratedEnumMethod; infer_instance

/-- The body of `walk::parallel::fields`: for a field of a non-candidate
class whose (element) type is a live candidate, reject the candidate if
the field cannot be renamed. -/
def fieldStep (ts : TypeSys) (cand : Finset TypeId) (rej : Finset TypeId)
    (f : FieldDef) : Finset TypeId :=
  if f.ref.cls ∈ cand then rej
  else
    let t := reduceArray ts f.ref.type
    if t ∈ cand ∧ t ∉ rej then
      if f.canRename then rej else insert t rej
    else rej

/-- One iteration of the pre-filter loops: if the (array-reduced) type is
a live candidate and the member is not renameable, reject it. -/
def preFilterStep (ts : TypeSys) (cand : Finset TypeId) (ren : Bool)
    (acc : Finset TypeId) (t0 : TypeId) : Finset TypeId :=
  let t := reduceArray ts t0
  if t ∈ cand ∧ t ∉ acc then
    if ren then acc else insert t acc
  else acc

/-- The per-method pre-filter of `reject_unsafe_enums` (the block before
`need_analyze`): gather the types named by the method's **proto**, reduce
arrays, and reject each live candidate if the method cannot be renamed. -/
def methodPreFilter (ts : TypeSys) (cand : Finset TypeId)
    (rej : Finset TypeId) (m : Method) : Finset TypeId :=
  (protoGatherTypes m.ref.proto).foldl
    (preFilterStep ts cand m.canRename) rej

/-- The body of `walk::parallel::methods`: skip generated enum methods,
run the proto pre-filter, and when `need_analyze` holds build the CFG, run
the fixpoint engine and the upcast detector.  `none` models an aborted
assertion. -/
def methodStep (ts : TypeSys) (P : Program) (cand : Finset TypeId)
    (rej : Finset TypeId) (m : Method) : Option (Finset TypeId) :=
  if isGeneratedEnumMethod ts P cand rej m then some rej
  else
    let rej1 := methodPreFilter ts cand rej m
    if needAnalyze ts m cand rej1 then
      match m.code with
      | none => some rej1
      | some c =>
          match genEnv m c with
          | none => none
          | some env0 =>
              detectorRun ts P cand m c (engineRun ts c env0) rej1
    else some rej1

/-- The rejected set accumulated by `reject_unsafe_enums`: the field walk,
then the method walk, threading the concurrent rejected set. -/
def rejectedOf (ts : TypeSys) (P : Program) (cand : Finset TypeId) :
    Option (Finset TypeId) :=
  let rejF := P.allFields.foldl (fieldStep ts cand) ∅
  P.allMethods.foldlM (methodStep ts P cand) rejF

/-- `optimize_enums::reject_unsafe_enums`: the final candidate set after
erasing every rejected type (`none` when an assertion aborted the pass). -/
def rejectUnsafeEnums (ts : TypeSys) (P : Program)
    (cand : Finset TypeId) : Option (Finset TypeId) :=
  (rejectedOf ts P cand).map (fun rej => cand \ rej)

/-- The contribution of one method to the rejected set when run against an
empty rejected set. -/
def methodDelta (ts : TypeSys) (P : Program) (cand : Finset TypeId)
    (m : Method) : Finset TypeId :=
  (methodStep ts P cand ∅ m).getD ∅

/-- A concrete type facade for the concrete programs below: ids below 10
are primitives (0 = `Z`, 1 = `I`, 2 = `V`), 10 = `Object`, 11 = `Enum`,
12 = `Class`, 13 = `String`, 14 = `StringBuilder`, 20/21 candidate enums
`E`/`F`, 30/31 the arrays `[LE;`/`[LF;`. -/
def TS : TypeSys where
  isPrimitive := fun t => decide (t < 10)
  arrayElem := fun t =>
    if t = 30 then some 20 else if t = 31 then some 21 else none
  arrayComponent := fun t =>
    if t = 30 then some 20 else if t = 31 then some 21 else none
  enumType := 11
  classType := 12
  stringType := 13
  stringBuilderType := 14
  objectType := 10
  boolType := 0
  intType := 1
  isEnumClass := fun t => t == 20 || t == 21

/-- `E.<clinit>()V` of candidate enum 20, whose body holds `const-class F`
(type 21): a generated enum method that, when analyzed, rejects 21. -/
def clinitE : Method where
  ref := ⟨20, "<clinit>", ⟨2, []⟩⟩
  isStatic := true
  canRename := true
  code := some { params := [], blocks := [⟨0, [Insn.constClass 21], []⟩] }

/-- A codeless, non-renameable method of a non-candidate class 40 whose
proto names candidate 20: its pre-filter rejects 20. -/
def mB : Method where
  ref := ⟨40, "m", ⟨2, [20]⟩⟩
  isStatic := true
  canRename := false
  code := none

/-- The scope `[class E, class B]`. -/
def progAB : Program := ⟨[⟨[], [clinitE]⟩, ⟨[], [mB]⟩]⟩

/-- The same two classes in the other order. -/
def progBA : Program := ⟨[⟨[], [mB]⟩, ⟨[], [clinitE]⟩]⟩

/-- A non-renameable method of class 41 whose proto names only `void` but
whose body holds `const-class E` (candidate 20): its instructions name a
candidate that its proto does not. -/
def mX : Method where
  ref := ⟨41, "foo", ⟨2, []⟩⟩
  isStatic := true
  canRename := false
  code := some { params := [], blocks := [⟨0, [Insn.constClass 20], []⟩] }

/-- An environment with register 0 holding `{E}` and register 1 holding
`{F}`. -/
def envEF : Env := fun reg =>
  if reg = .r 0 then .finite {20}
  else if reg = .r 1 then .finite {21}
  else .bot

/-- An environment with register 0 holding `{E}` and register 1 holding
the two array types `{[LE;, [LF;}`. -/
def envArr : Env := fun reg =>
  if reg = .r 0 then .finite {20}
  else if reg = .r 1 then .finite {30, 31}
  else .bot

lemma mem_reject1 {cand : Finset TypeId} {t x : TypeId}
    {rej : Finset TypeId} :
    x ∈ reject1 cand t rej ↔ x ∈ rej ∨ (x = t ∧ t ∈ cand) := by
  unfold reject1
  split <;> simp_all [Finset.mem_insert] <;> tauto

lemma mem_rejectSet {cand s rej : Finset TypeId} {x : TypeId} :
    x ∈ rejectSet cand s rej ↔ x ∈ rej ∨ (x ∈ s ∧ x ∈ cand) := by
  unfold rejectSet
  simp [Finset.mem_union, Finset.mem_filter]

/-- Claim C1: a call of `reject_if_inconsistent` with value `V`, required
type `R` and any reason inserts exactly: when `R` is a candidate, every
candidate non-primitive `t ∈ V` with `t ≠ R` (plus `R` itself when at
least one non-primitive `t ≠ R` exists in `V`); when `R` is not a
candidate, every candidate element of `V`.  Nothing else. -/
theorem reject_if_inconsistent_characterization
    (ts : TypeSys) (cand : Finset TypeId) (V : EnumTypes) (R : TypeId)
    (rej : Finset TypeId) (reason : Reason) (x : TypeId) :
    x ∈ rejectIfInconsistent ts cand V R rej reason ↔
      x ∈ rej ∨
      (R ∈ cand ∧ x ∈ cand ∧ x ∈ V.elements ∧ ts.isPrimitive x = false ∧
        x ≠ R) ∨
      (R ∈ cand ∧ x = R ∧
        ∃ t ∈ V.elements, ts.isPrimitive t = false ∧ t ≠ R) ∨
      (R ∉ cand ∧ x ∈ V.elements ∧ x ∈ cand) := by
  unfold rejectIfInconsistent
  by_cases hR : R ∈ cand
  · simp only [if_pos hR]
    by_cases hbad : (V.elements.filter
        (fun t => ts.isPrimitive t = false ∧ t ≠ R)).Nonempty
    · rw [if_pos hbad]
      rw [Finset.filter_nonempty_iff] at hbad
      simp only [mem_reject1, mem_rejectSet, Finset.mem_filter]
      constructor
      · rintro ((h | ⟨⟨hv, hp, hne⟩, hc⟩) | ⟨hx, _⟩)
        · exact Or.inl h
        · exact Or.inr (Or.inl ⟨hR, hc, hv, hp, hne⟩)
        · exact Or.inr (Or.inr (Or.inl ⟨hR, hx, hbad⟩))
      · rintro (h | ⟨_, hc, hv, hp, hne⟩ | ⟨_, hx, _⟩ | ⟨hRc, _⟩)
        · exact Or.inl (Or.inl h)
        · exact Or.inl (Or.inr ⟨⟨hv, hp, hne⟩, hc⟩)
        · exact Or.inr ⟨hx, hR⟩
        · exact absurd hR hRc
    · rw [if_neg hbad]
      rw [Finset.filter_nonempty_iff] at hbad
      push_neg at hbad
      constructor
      · tauto
      · rintro (h | ⟨_, hx, hv, hp, hne⟩ | ⟨_, _, t, ht, hp, hne⟩ | ⟨hRc, _⟩)
        · exact h
        · exact absurd hne (by simpa [hp] using hbad x hv)
        · exact absurd hne (by simpa [hp] using hbad t ht)
        · exact absurd hR hRc
  · simp only [if_neg hR, mem_rejectSet]
    tauto

lemma firstElem_empty : firstElem ∅ = none := by
  unfold firstElem
  rw [dif_neg]
  exact Finset.not_nonempty_empty

lemma firstElem_singleton (x : TypeId) : firstElem {x} = some x := by
  unfold firstElem
  rw [dif_pos (Finset.singleton_nonempty x)]
  simp

/-- The C++ condition `size>1 || size>1 || (this_type && that_type &&
this_type != that_type)` — phrased with an arbitrary representative of
each set — is the "both singletons and different" condition: the choice
of `*begin()` is irrelevant. -/
lemma cppCond_iff_singletons (a b : Finset TypeId) :
    (1 < a.card ∨ 1 < b.card ∨
      neqFirsts (firstElem a) (firstElem b) = true) ↔
    (1 < a.card ∨ 1 < b.card ∨
      (a.card = 1 ∧ b.card = 1 ∧ a ≠ b)) := by
  by_cases ha : 1 < a.card
  · simp [ha]
  by_cases hb : 1 < b.card
  · simp [hb]
  simp only [ha, hb, false_or]
  have ha1 : a.card = 0 ∨ a.card = 1 := by omega
  have hb1 : b.card = 0 ∨ b.card = 1 := by omega
  rcases ha1 with h0 | h1
  · rw [Finset.card_eq_zero] at h0
    subst h0
    simp [firstElem_empty, neqFirsts]
  · rcases hb1 with k0 | k1
    · rw [Finset.card_eq_zero] at k0
      subst k0
      obtain ⟨x, rfl⟩ := Finset.card_eq_one.mp h1
      simp [firstElem_singleton, firstElem_empty, neqFirsts]
    · obtain ⟨x, rfl⟩ := Finset.card_eq_one.mp h1
      obtain ⟨y, rfl⟩ := Finset.card_eq_one.mp k1
      rw [firstElem_singleton, firstElem_singleton]
      simp only [neqFirsts, bne_iff_ne, h1, k1, true_and, ne_eq,
        Finset.singleton_inj]

/-- Claim C2: for an `invoke-virtual` of `Enum.equals(Object)` or
`Enum.compareTo(Enum)` whose declaring class is `java.lang.Enum` or a
candidate enum, the detector rejects `thisTypes` and `thatTypes` (the
non-primitive inferred types of the receiver and the argument) exactly
when one of them has more than one element or both are singletons with
different elements; otherwise it rejects nothing. -/
theorem virtual_equals_compareTo_characterization
    (ts : TypeSys) (P : Program) (cand : Finset TypeId) (env : Env)
    (rej : Finset TypeId) (callee : MethodRef) (a b : Nat)
    (hc : callee.cls = ts.enumType ∨ callee.cls ∈ cand)
    (hm : signaturesMatch callee (ENUM_EQUALS_METHOD ts) ∨
      signaturesMatch callee (ENUM_COMPARETO_METHOD ts)) :
    processVirtualInvocation ts P cand callee [a, b] env rej =
      some (if 1 < (discardPrimitives ts (env (.r a))).card ∨
              1 < (discardPrimitives ts (env (.r b))).card ∨
              ((discardPrimitives ts (env (.r a))).card = 1 ∧
               (discardPrimitives ts (env (.r b))).card = 1 ∧
               discardPrimitives ts (env (.r a)) ≠
                 discardPrimitives ts (env (.r b)))
            then rejectSet cand (discardPrimitives ts (env (.r b)))
                (rejectSet cand (discardPrimitives ts (env (.r a))) rej)
            else rej) := by
  unfold processVirtualInvocation
  rw [if_pos hc, if_pos hm]
  simp only [List.headD_cons, List.getD_cons_succ, List.getD_cons_zero]
  rw [if_congr (cppCond_iff_singletons _ _) rfl rfl]
  split <;> rfl

/-- Witness for C2: `a.equals(b)` with `E(a) = {E}`, `E(b) = {F}`, two
distinct candidates: both are rejected. -/
theorem virtual_equals_compareTo_witness :
    processVirtualInvocation TS progAB {20, 21} (ENUM_EQUALS_METHOD TS)
      [0, 1] envEF ∅ = some {20, 21} := by
  have h := virtual_equals_compareTo_characterization TS progAB {20, 21}
    envEF ∅ (ENUM_EQUALS_METHOD TS) 0 1 (Or.inl rfl) (Or.inl ⟨rfl, rfl⟩)
  rw [h]
  decide

/-- Claim C5: the transfer of `const-class t` binds the result register to
the singleton `{java.lang.Class}` — not to `of(t)` — and the detector
rejects `t` (reason USED_AS_CLASS_OBJECT) exactly when `t` is a
candidate. -/
theorem const_class_semantics (ts : TypeSys) (P : Program)
    (cand : Finset TypeId) (m : Method) (env : Env) (rej : Finset TypeId)
    (t : TypeId) :
    (analyzeInstruction ts (.constClass t) env) .RESULT =
      EnumTypes.finite {ts.classType} ∧
    (t ≠ ts.classType →
      (analyzeInstruction ts (.constClass t) env) .RESULT ≠
        EnumTypes.finite {t}) ∧
    processInstruction ts P cand m (.constClass t) env rej =
      some (if t ∈ cand then insert t rej else rej) := by
  refine ⟨?_, ?_, ?_⟩
  · simp [analyzeInstruction, Env.set]
  · intro hne
    simp only [analyzeInstruction, Env.set, Function.update_same]
    intro hcontra
    rw [EnumTypes.finite.injEq, Finset.singleton_inj] at hcontra
    exact hne hcontra.symm
  · simp [processInstruction, reject1]

/-- Witness for C5: `const-class F` (21) with `Class = 12`: the result
register does not hold `{F}`, and candidate `F` is rejected. -/
theorem const_class_witness :
    (analyzeInstruction TS (.constClass 21) Env.empty) .RESULT ≠
      EnumTypes.finite {21} ∧
    processInstruction TS progAB {20, 21} mB (.constClass 21) Env.empty ∅ =
      some {21} := by
  have h := const_class_semantics TS progAB {20, 21} mB Env.empty ∅ 21
  refine ⟨h.2.1 (by decide), ?_⟩
  rw [h.2.2]
  decide

/-- Claim C8: `gen_env` aborts (assertion) exactly when the number of
`load-param` instructions differs from `args.size() + (static ? 0 : 1)`. -/
theorem gen_env_assert (m : Method) (c : Code) :
    genEnv m c = none ↔
      c.params.length ≠ m.ref.proto.args.length +
        (if m.isStatic then 0 else 1) := by
  unfold genEnv
  by_cases h : c.params.length = m.ref.proto.args.length +
      (if m.isStatic then 0 else 1)
  · rw [if_pos h]
    simp only [h, ne_eq, not_true_eq_false, iff_false]
    split
    · split <;> simp
    · simp
  · rw [if_neg h]
    simp [h]

/-- Claim C9: `iput-object` is guarded by the assertion that the field's
declaring class is not a candidate (abort otherwise), and only then checks
the value register against the field type — the same guard the detector
applies to `iget-object`. -/
theorem iput_object_guard (ts : TypeSys) (P : Program)
    (cand : Finset TypeId) (m : Method) (f : FieldRef) (val obj : Nat)
    (env : Env) (rej : Finset TypeId) :
    processInstruction ts P cand m (.iputObject f val obj) env rej =
      (if f.cls ∈ cand then none
       else some (rejectIfInconsistent ts cand (env (.r val)) f.type rej
         .CAST_ISPUT_OBJECT)) ∧
    processInstruction ts P cand m (.igetObject f val) env rej =
      (if f.cls ∈ cand then none else some rej) := by
  constructor <;> simp [processInstruction, processIsputObject]

/-- Claim C10: a method without IR code never satisfies `need_analyze`, so
its `methodStep` runs neither the engine nor the detector: its entire
contribution is the generated-method skip or the proto pre-filter. -/
theorem codeless_method_only_prefilter (ts : TypeSys) (P : Program)
    (cand rej : Finset TypeId) (m : Method) (h : m.code = none) :
    (∀ cand2 rej2 : Finset TypeId, ¬ needAnalyze ts m cand2 rej2) ∧
    methodStep ts P cand rej m =
      some (if isGeneratedEnumMethod ts P cand rej m then rej
            else methodPreFilter ts cand rej m) := by
  have hna : ∀ cand2 rej2 : Finset TypeId, ¬ needAnalyze ts m cand2 rej2 :=
    fun _ _ hn => hn.1 h
  refine ⟨hna, ?_⟩
  unfold methodStep
  by_cases hg : isGeneratedEnumMethod ts P cand rej m
  · rw [if_pos hg, if_pos hg]
  · rw [if_neg hg, if_neg hg,
      if_neg (hna cand (methodPreFilter ts cand rej m))]

/-- Witness for C10: the codeless method `mB` contributes only its proto
pre-filter rejection. -/
theorem codeless_method_only_prefilter_witness :
    methodStep TS progAB {20, 21} ∅ mB =
      some (if isGeneratedEnumMethod TS progAB {20, 21} ∅ mB then ∅
            else methodPreFilter TS {20, 21} ∅ mB) :=
  (codeless_method_only_prefilter TS progAB {20, 21} ∅ mB rfl).2

/-- Claim C6: for `aput-object`, with `AT` the acceptable (non-primitive)
element types of the array register's set: more than one acceptable type
rejects every candidate element of the value register's set and of `AT`;
exactly one applies `reject_if_inconsistent` against the sole element;
none (in particular when the array register holds no array types) rejects
nothing. -/
theorem aput_object_characterization (ts : TypeSys) (P : Program)
    (cand : Finset TypeId) (m : Method) (val arr idx : Nat) (env : Env)
    (rej : Finset TypeId) :
    processInstruction ts P cand m (.aputObject val arr idx) env rej =
      some (processAputObject ts cand val arr env rej) ∧
    (1 < (acceptableElemTypes ts (env (.r arr))).card →
      processAputObject ts cand val arr env rej =
        rejectSet cand (acceptableElemTypes ts (env (.r arr)))
          (rejectSet cand (env (.r val)).elements rej)) ∧
    (∀ x, acceptableElemTypes ts (env (.r arr)) = {x} →
      processAputObject ts cand val arr env rej =
        rejectIfInconsistent ts cand (env (.r val)) x rej
          .CAST_APUT_OBJECT) ∧
    (acceptableElemTypes ts (env (.r arr)) = ∅ →
      processAputObject ts cand val arr env rej = rej) ∧
    ((∀ t ∈ (env (.r arr)).elements, ts.arrayElem t = none) →
      acceptableElemTypes ts (env (.r arr)) = ∅) := by
  refine ⟨rfl, ?_, ?_, ?_, ?_⟩
  · intro h
    unfold processAputObject
    rw [if_pos h]
  · intro x hx
    unfold processAputObject
    simp only [hx]
    rw [if_neg (by simp), dif_pos (Finset.card_singleton x)]
    rw [Finset.min'_singleton]
  · intro h0
    unfold processAputObject
    simp only [h0]
    rw [if_neg (by simp), dif_neg (by simp)]
  · intro hall
    unfold acceptableElemTypes
    have hf : (env (.r arr)).elements.filter
        (fun t => ((ts.arrayElem t).map (fun e => !ts.isPrimitive e)).getD
          false = true) = ∅ :=
      Finset.filter_eq_empty_iff.mpr (fun t ht => by simp [hall t ht])
    rw [hf, Finset.image_empty]

/-- Witness for C6: an `aput-object` whose array register holds the two
array types `{[LE;, [LF;}` (acceptable element types `{E, F}`): the big
reject branch fires. -/
theorem aput_object_witness :
    processAputObject TS {20, 21} 0 1 envArr ∅ =
      rejectSet {20, 21} (acceptableElemTypes TS (envArr (.r 1)))
        (rejectSet {20, 21} (envArr (.r 0)).elements ∅) :=
  (aput_object_characterization TS progAB {20, 21} mB 0 1 2 envArr
    ∅).2.1 (by decide)

lemma mem_foldl_preFilterStep (ts : TypeSys) (cand : Finset TypeId)
    (ren : Bool) (l : List TypeId) : ∀ (acc : Finset TypeId) (x : TypeId),
    x ∈ l.foldl (preFilterStep ts cand ren) acc ↔
      x ∈ acc ∨ (ren = false ∧ x ∈ cand ∧
        ∃ t ∈ l, reduceArray ts t = x) := by
  induction l with
  | nil => intro acc x; simp
  | cons t0 l ih =>
      intro acc x
      rw [List.foldl_cons, ih]
      unfold preFilterStep
      simp only [List.mem_cons]
      by_cases hmem : reduceArray ts t0 ∈ cand ∧ reduceArray ts t0 ∉ acc
      · rw [if_pos hmem]
        cases ren with
        | true => simp
        | false =>
            rw [if_neg (by simp)]
            simp only [Finset.mem_insert]
            constructor
            · rintro ((h | h) | ⟨_, hx, t, ht, hred⟩)
              · exact Or.inr ⟨by simp, h ▸ hmem.1, t0, Or.inl rfl, h.symm⟩
              · exact Or.inl h
              · exact Or.inr ⟨by simp, hx, t, Or.inr ht, hred⟩
            · rintro (h | ⟨_, hx, t, (rfl | ht), hred⟩)
              · exact Or.inl (Or.inr h)
              · exact Or.inl (Or.inl hred.symm)
              · exact Or.inr ⟨by simp, hx, t, ht, hred⟩
      · rw [if_neg hmem]
        constructor
        · rintro (h | ⟨hr, hx, t, ht, hred⟩)
          · exact Or.inl h
          · exact Or.inr ⟨hr, hx, t, Or.inr ht, hred⟩
        · rintro (h | ⟨hr, hx, t, (rfl | ht), hred⟩)
          · exact Or.inl h
          · rw [hred] at hmem
            push_neg at hmem
            exact Or.inl (hmem hx)
          · exact Or.inr ⟨hr, hx, t, ht, hred⟩

/-- Amended claim C4: the per-method pre-filter gathers only the types
named by the method's **proto** (not those named by its instructions);
among those (array-reduced) it rejects exactly the live candidates of a
non-renameable method. -/
theorem prefilter_proto_only_characterization (ts : TypeSys)
    (cand rej : Finset TypeId) (m : Method) (x : TypeId) :
    x ∈ methodPreFilter ts cand rej m ↔
      x ∈ rej ∨ (m.canRename = false ∧ x ∈ cand ∧
        ∃ t ∈ protoGatherTypes m.ref.proto, reduceArray ts t = x) := by
  unfold methodPreFilter
  exact mem_foldl_preFilterStep ts cand m.canRename
    (protoGatherTypes m.ref.proto) rej x

/-- Counterexample to C4 as stated: `mX` is not renameable and its
instructions (a `const-class E`) name the live candidate 20, which the
claim says the pre-filter must reject — but the pre-filter consults only
the proto, so nothing is rejected. -/
theorem prefilter_counterexample :
    (20 : TypeId) ∈ methodGatherTypes mX ∧
    (20 : TypeId) ∈ ({20} : Finset TypeId) ∧
    reduceArray TS 20 = 20 ∧
    mX.canRename = false ∧
    (20 : TypeId) ∉ methodPreFilter TS {20} ∅ mX := by decide

lemma reject1_subset_of {cand : Finset TypeId} {t : TypeId}
    {rej S : Finset TypeId} (hr : rej ⊆ S) (hc : cand ⊆ S) :
    reject1 cand t rej ⊆ S := by
  unfold reject1
  split
  · exact Finset.insert_subset (hc (by assumption)) hr
  · exact hr

lemma rejectSet_subset_of {cand s rej S : Finset TypeId}
    (hr : rej ⊆ S) (hc : cand ⊆ S) : rejectSet cand s rej ⊆ S := by
  unfold rejectSet
  refine Finset.union_subset hr ?_
  intro x hx
  exact hc (Finset.mem_filter.mp hx).2

lemma rejectIfInconsistent_subset_of {ts : TypeSys}
    {cand : Finset TypeId} {V : EnumTypes} {R : TypeId}
    {rej S : Finset TypeId} {reason : Reason}
    (hr : rej ⊆ S) (hc : cand ⊆ S) :
    rejectIfInconsistent ts cand V R rej reason ⊆ S := by
  unfold rejectIfInconsistent
  split
  · by_cases hb : (V.elements.filter
        (fun t => ts.isPrimitive t = false ∧ t ≠ R)).Nonempty
    · rw [if_pos hb]
      exact reject1_subset_of (rejectSet_subset_of hr hc) hc
    · rw [if_neg hb]
      exact hr
  · exact rejectSet_subset_of hr hc

lemma rejectArgs_subset_of (ts : TypeSys) {cand S : Finset TypeId}
    (hc : cand ⊆ S) :
    ∀ (ss : List Nat) (tts : List TypeId) (env : Env)
      (rej : Finset TypeId), rej ⊆ S →
      rejectArgs ts cand ss tts env rej ⊆ S := by
  intro ss
  induction ss with
  | nil =>
      intro tts env rej hr
      cases tts <;> simpa [rejectArgs] using hr
  | cons s ss ih =>
      intro tts env rej hr
      cases tts with
      | nil => simpa [rejectArgs] using hr
      | cons t tts =>
          simp only [rejectArgs]
          exact ih tts env _ (rejectIfInconsistent_subset_of hr hc)

lemma processGeneralInvocation_subset_of {ts : TypeSys}
    {cand : Finset TypeId} {b : Bool} {callee : MethodRef}
    {srcs : List Nat} {env : Env} {rej S r : Finset TypeId}
    (hr : rej ⊆ S) (hc : cand ⊆ S)
    (h : processGeneralInvocation ts cand b callee srcs env rej = some r) :
    r ⊆ S := by
  simp only [processGeneralInvocation] at h
  have h1 : (if b = false ∧ callee.cls ∈ cand then
      reject1 cand callee.cls rej else rej) ⊆ S := by
    split
    · exact reject1_subset_of hr hc
    · exact hr
  split at h
  · cases h
    exact rejectArgs_subset_of ts hc _ _ _ _ h1
  · split at h
    · cases h
      exact rejectArgs_subset_of ts hc _ _ _ _
        (rejectIfInconsistent_subset_of h1 hc)
    · cases h

lemma processAputObject_subset_of {ts : TypeSys} {cand : Finset TypeId}
    {val arr : Nat} {env : Env} {rej S : Finset TypeId}
    (hr : rej ⊆ S) (hc : cand ⊆ S) :
    processAputObject ts cand val arr env rej ⊆ S := by
  unfold processAputObject
  by_cases h1 : 1 < (acceptableElemTypes ts (env (.r arr))).card
  · rw [if_pos h1]
    exact rejectSet_subset_of (rejectSet_subset_of hr hc) hc
  · rw [if_neg h1]
    by_cases h2 : (acceptableElemTypes ts (env (.r arr))).card = 1
    · rw [dif_pos h2]
      exact rejectIfInconsistent_subset_of hr hc
    · rw [dif_neg h2]
      exact hr

lemma processVirtualInvocation_subset_of {ts : TypeSys} {P : Program}
    {cand : Finset TypeId} {callee : MethodRef} {srcs : List Nat}
    {env : Env} {rej S r : Finset TypeId}
    (hr : rej ⊆ S) (hc : cand ⊆ S)
    (h : processVirtualInvocation ts P cand callee srcs env rej = some r) :
    r ⊆ S := by
  simp only [processVirtualInvocation] at h
  split at h
  · split at h
    · split at h
      · cases h
        exact rejectSet_subset_of (rejectSet_subset_of hr hc) hc
      · cases h
        exact hr
    · split at h
      · split at h
        · cases h
          exact rejectSet_subset_of hr hc
        · cases h
          exact hr
      · exact processGeneralInvocation_subset_of hr hc h
  · split at h
    · split at h
      · cases h
        exact rejectSet_subset_of hr hc
      · cases h
        exact hr
    · exact processGeneralInvocation_subset_of hr hc h

lemma processInstruction_subset_of {ts : TypeSys} {P : Program}
    {cand : Finset TypeId} {m : Method} {insn : Insn} {env : Env}
    {rej S r : Finset TypeId} (hr : rej ⊆ S) (hc : cand ⊆ S)
    (h : processInstruction ts P cand m insn env rej = some r) :
    r ⊆ S := by
  cases insn with
  | checkCast src t =>
      cases h
      exact rejectIfInconsistent_subset_of hr hc
  | constClass t =>
      cases h
      exact reject1_subset_of hr hc
  | invokeInterface callee srcs =>
      exact processGeneralInvocation_subset_of hr hc h
  | invokeSuper callee srcs =>
      exact processGeneralInvocation_subset_of hr hc h
  | invokeDirect callee srcs =>
      simp only [processInstruction, processDirectInvocation] at h
      split at h
      · cases h
      · exact processGeneralInvocation_subset_of hr hc h
  | invokeStatic callee srcs =>
      simp only [processInstruction, processStaticInvocation] at h
      split at h
      · cases h
        exact hr
      · exact processGeneralInvocation_subset_of hr hc h
  | invokeVirtual callee srcs =>
      exact @processVirtualInvocation_subset_of ts P cand callee
        srcs env rej S r hr hc h
  | returnObject src =>
      simp only [processInstruction, processReturnObject] at h
      split at h
      · cases h
        exact rejectIfInconsistent_subset_of hr hc
      · cases h
  | aputObject val arr idx =>
      cases h
      exact processAputObject_subset_of hr hc
  | igetObject f src =>
      simp only [processInstruction] at h
      split at h
      · cases h
      · cases h
        exact hr
  | iputObject f val obj =>
      simp only [processInstruction] at h
      split at h
      · cases h
      · cases h
        exact rejectIfInconsistent_subset_of hr hc
  | sputObject f val =>
      cases h
      exact rejectIfInconsistent_subset_of hr hc
  | loadParam d =>
      cases h
      exact hr
  | moveObject d s =>
      cases h
      exact hr
  | moveResultObject d =>
      cases h
      exact hr
  | sgetObject f =>
      cases h
      exact hr
  | agetObject a i =>
      cases h
      exact hr
  | other h1 h2 h3 h4 h5 h6 =>
      cases h
      exact hr

lemma detectBlock_subset_of {ts : TypeSys} {P : Program}
    {cand : Finset TypeId} {m : Method} {S : Finset TypeId}
    (hc : cand ⊆ S) :
    ∀ (insns : List Insn) (env : Env) (rej r : Finset TypeId),
    rej ⊆ S → detectBlock ts P cand m insns env rej = some r → r ⊆ S := by
  intro insns
  induction insns with
  | nil =>
      intro env rej r hr h
      cases h
      exact hr
  | cons i rest ih =>
      intro env rej r hr h
      simp only [detectBlock] at h
      cases hpi : processInstruction ts P cand m i
          (analyzeInstruction ts i env) rej with
      | none => rw [hpi] at h; cases h
      | some rej1 =>
          rw [hpi] at h
          exact ih _ _ _ (processInstruction_subset_of hr hc hpi) h

lemma foldlM_option_subset {α : Type}
    (step : Finset TypeId → α → Option (Finset TypeId))
    (S : Finset TypeId)
    (hstep : ∀ rej a r, rej ⊆ S → step rej a = some r → r ⊆ S) :
    ∀ (l : List α) (rej r : Finset TypeId), rej ⊆ S →
      List.foldlM step rej l = some r → r ⊆ S := by
  intro l
  induction l with
  | nil =>
      intro rej r hr h
      rw [List.foldlM_nil] at h
      cases h
      exact hr
  | cons a l ih =>
      intro rej r hr h
      rw [List.foldlM_cons] at h
      cases h1 : step rej a with
      | none => rw [h1] at h; cases h
      | some rej1 =>
          rw [h1] at h
          exact ih rej1 r (hstep rej a rej1 hr h1) h

lemma detectorRun_subset_of {ts : TypeSys} {P : Program}
    {cand : Finset TypeId} {m : Method} {c : Code}
    {states : Nat → Option Env} {rej S r : Finset TypeId}
    (hr : rej ⊆ S) (hc : cand ⊆ S)
    (h : detectorRun ts P cand m c states rej = some r) : r ⊆ S := by
  unfold detectorRun at h
  refine foldlM_option_subset _ S ?_ c.blocks rej r hr h
  intro rej1 b r1 hr1 hb
  cases hst : states b.id with
  | none =>
      rw [hst] at hb
      cases hb
      exact hr1
  | some env =>
      rw [hst] at hb
      exact detectBlock_subset_of hc b.insns env rej1 r1 hr1 hb

lemma methodPreFilter_subset_of {ts : TypeSys} {cand rej S : Finset TypeId}
    {m : Method} (hr : rej ⊆ S) (hc : cand ⊆ S) :
    methodPreFilter ts cand rej m ⊆ S := by
  intro x hx
  unfold methodPreFilter at hx
  rcases (mem_foldl_preFilterStep ts cand m.canRename
      (protoGatherTypes m.ref.proto) rej x).mp hx with h | ⟨_, hxc, _⟩
  · exact hr h
  · exact hc hxc

lemma methodStep_subset_of {ts : TypeSys} {P : Program}
    {cand rej S r : Finset TypeId} {m : Method}
    (hr : rej ⊆ S) (hc : cand ⊆ S)
    (h : methodStep ts P cand rej m = some r) : r ⊆ S := by
  simp only [methodStep] at h
  split at h
  · cases h
    exact hr
  · have h1 : methodPreFilter ts cand rej m ⊆ S :=
      methodPreFilter_subset_of hr hc
    split at h
    · split at h
      · cases h
        exact h1
      · split at h
        · cases h
        · exact detectorRun_subset_of h1 hc h
    · cases h
      exact h1

lemma foldl_fieldStep_subset {ts : TypeSys} {cand S : Finset TypeId}
    (hc : cand ⊆ S) :
    ∀ (l : List FieldDef) (rej : Finset TypeId), rej ⊆ S →
      l.foldl (fieldStep ts cand) rej ⊆ S := by
  intro l
  induction l with
  | nil => intro rej hr; exact hr
  | cons f l ih =>
      intro rej hr
      rw [List.foldl_cons]
      apply ih
      unfold fieldStep
      by_cases h1 : f.ref.cls ∈ cand
      · rw [if_pos h1]
        exact hr
      · rw [if_neg h1]
        by_cases h2 : reduceArray ts f.ref.type ∈ cand ∧
            reduceArray ts f.ref.type ∉ rej
        · rw [if_pos h2]
          by_cases h3 : f.canRename = true
          · rw [if_pos h3]
            exact hr
          · rw [if_neg h3]
            exact Finset.insert_subset (hc h2.1) hr
        · rw [if_neg h2]
          exact hr

/-- Claim C7: the candidate set is read-only during the pass — the final
prune is `candidates \ rejected`, applied once — and the accumulated
rejected set only ever contains candidates. -/
theorem candidates_pruned_exactly (ts : TypeSys) (P : Program)
    (cand R : Finset TypeId) (h : rejectedOf ts P cand = some R) :
    R ⊆ cand ∧ rejectUnsafeEnums ts P cand = some (cand \ R) := by
  constructor
  · unfold rejectedOf at h
    refine foldlM_option_subset (methodStep ts P cand) cand ?_
      P.allMethods _ R ?_ h
    · intro rej a r hr hs
      exact methodStep_subset_of hr (Finset.Subset.refl cand) hs
    · exact foldl_fieldStep_subset (Finset.Subset.refl cand)
        P.allFields ∅ (Finset.empty_subset cand)
  · unfold rejectUnsafeEnums
    rw [h]
    rfl

/-- Witness for C7: on `progAB` the pass rejects exactly `{E}` and prunes
the candidates to `{F}`. -/
theorem candidates_pruned_exactly_witness :
    ({20} : Finset TypeId) ⊆ {20, 21} ∧
    rejectUnsafeEnums TS progAB {20, 21} = some ({20, 21} \ {20}) :=
  candidates_pruned_exactly TS progAB {20, 21} {20} (by decide)

/-- Counterexample to C3 as stated: the same two classes in the two orders
give different final candidate sets.  When `E.<clinit>` (a generated
method of the candidate enum `E = 20`, containing `const-class F`) is
walked first it is skipped, and the codeless method later rejects only
`E`; walked after `E` has been rejected, the skip-list guard
`!rejected_enums.count(...)` fails, `E.<clinit>` is analyzed, and `F = 21`
is rejected too. -/
theorem order_independence_counterexample :
    progBA.classes.Perm progAB.classes ∧
    rejectUnsafeEnums TS progAB {20, 21} = some {21} ∧
    rejectUnsafeEnums TS progBA {20, 21} = some ∅ ∧
    rejectUnsafeEnums TS progAB {20, 21} ≠
      rejectUnsafeEnums TS progBA {20, 21} :=
  ⟨List.Perm.swap _ _ _, by decide, by decide, by decide⟩

lemma fieldStep_decomp (ts : TypeSys) (cand : Finset TypeId)
    (rej : Finset TypeId) (f : FieldDef) :
    fieldStep ts cand rej f = rej ∪ fieldStep ts cand ∅ f := by
  unfold fieldStep
  split_ifs with h1 h2 <;>
    simp_all [Finset.not_mem_empty, Finset.union_insert]
  split_ifs with ha hb
  · ext x
    simp only [Finset.mem_insert, Finset.mem_union, Finset.mem_singleton]
    tauto
  · exact absurd ha.1 hb
  · have ht : reduceArray ts f.ref.type ∈ rej := by tauto
    exact (Finset.union_eq_left.mpr (Finset.singleton_subset_iff.mpr ht)).symm
  · simp

lemma foldlM_of_delta_perm
    (step : Finset TypeId → Method → Option (Finset TypeId))
    (d : Method → Finset TypeId) :
    ∀ {l1 l2 : List Method}, l1.Perm l2 →
      (∀ m ∈ l1, ∀ rej, step rej m = some (rej ∪ d m)) →
      ∀ rej, List.foldlM step rej l1 = List.foldlM step rej l2 := by
  intro l1 l2 hp
  induction hp with
  | nil => intro _ rej; rfl
  | cons a hp ih =>
      intro hM rej
      rw [List.foldlM_cons, List.foldlM_cons,
        hM a (List.mem_cons_self a _) rej]
      show List.foldlM step (rej ∪ d a) _ = List.foldlM step (rej ∪ d a) _
      exact ih (fun m hm rej1 => hM m (List.mem_cons_of_mem a hm) rej1) _
  | swap x y l =>
      intro hM rej
      have hy : y ∈ y :: x :: l := List.mem_cons_self _ _
      have hx : x ∈ y :: x :: l :=
        List.mem_cons_of_mem _ (List.mem_cons_self _ _)
      have e1 : List.foldlM step rej (y :: x :: l) =
          List.foldlM step (rej ∪ d y ∪ d x) l := by
        rw [List.foldlM_cons, hM y hy rej]
        show List.foldlM step (rej ∪ d y) (x :: l) = _
        rw [List.foldlM_cons, hM x hx (rej ∪ d y)]
        rfl
      have e2 : List.foldlM step rej (x :: y :: l) =
          List.foldlM step (rej ∪ d x ∪ d y) l := by
        rw [List.foldlM_cons, hM x hx rej]
        show List.foldlM step (rej ∪ d x) (y :: l) = _
        rw [List.foldlM_cons, hM y hy (rej ∪ d x)]
        rfl
      rw [e1, e2, Finset.union_right_comm]
  | trans hp1 hp2 ih1 ih2 =>
      intro hM rej
      rw [ih1 hM rej]
      exact ih2 (fun m hm rej1 => hM m (hp1.mem_iff.mpr hm) rej1) rej

lemma isDefStatic_iff_of_perm {P Q : Program}
    (h : P.allMethods.Perm Q.allMethods) (r : MethodRef) :
    Q.isDefStatic r ↔ P.isDefStatic r := by
  unfold Program.isDefStatic
  constructor
  · rintro ⟨m, hm, h1, h2⟩
    exact ⟨m, h.mem_iff.mpr hm, h1, h2⟩
  · rintro ⟨m, hm, h1, h2⟩
    exact ⟨m, h.mem_iff.mp hm, h1, h2⟩

lemma processStaticInvocation_congr {ts : TypeSys} {P Q : Program}
    (hds : ∀ r, Q.isDefStatic r = P.isDefStatic r)
    (cand : Finset TypeId) (callee : MethodRef) (srcs : List Nat)
    (env : Env) (rej : Finset TypeId) :
    processStaticInvocation ts Q cand callee srcs env rej =
      processStaticInvocation ts P cand callee srcs env rej := by
  unfold processStaticInvocation isEnumValues isEnumValueof
    isStaticMethodOnEnumClass
  simp only [hds]

lemma processInstruction_congr {ts : TypeSys} {P Q : Program}
    (hds : ∀ r, Q.isDefStatic r = P.isDefStatic r)
    (cand : Finset TypeId) (m : Method) (insn : Insn) (env : Env)
    (rej : Finset TypeId) :
    processInstruction ts Q cand m insn env rej =
      processInstruction ts P cand m insn env rej := by
  cases insn with
  | invokeStatic callee srcs =>
      exact processStaticInvocation_congr hds cand callee srcs env rej
  | invokeVirtual callee srcs =>
      unfold processInstruction processVirtualInvocation
      rfl
  | _ => rfl

lemma detectBlock_congr {ts : TypeSys} {P Q : Program}
    (hds : ∀ r, Q.isDefStatic r = P.isDefStatic r)
    (cand : Finset TypeId) (m : Method) :
    ∀ (insns : List Insn) (env : Env) (rej : Finset TypeId),
    detectBlock ts Q cand m insns env rej =
      detectBlock ts P cand m insns env rej := by
  intro insns
  induction insns with
  | nil => intro env rej; rfl
  | cons i rest ih =>
      intro env rej
      simp only [detectBlock]
      rw [processInstruction_congr hds]
      cases processInstruction ts P cand m i
          (analyzeInstruction ts i env) rej with
      | none => rfl
      | some rej1 => exact ih _ _

lemma detectorRun_congr {ts : TypeSys} {P Q : Program}
    (hds : ∀ r, Q.isDefStatic r = P.isDefStatic r)
    (cand : Finset TypeId) (m : Method) (c : Code)
    (states : Nat → Option Env) (rej : Finset TypeId) :
    detectorRun ts Q cand m c states rej =
      detectorRun ts P cand m c states rej := by
  unfold detectorRun
  have hstep : (fun (acc : Finset TypeId) (b : Block) =>
      match states b.id with
      | none => some acc
      | some env => detectBlock ts Q cand m b.insns env acc) =
      (fun (acc : Finset TypeId) (b : Block) =>
      match states b.id with
      | none => some acc
      | some env => detectBlock ts P cand m b.insns env acc) := by
    funext acc b
    cases states b.id with
    | none => rfl
    | some env => exact detectBlock_congr hds cand m b.insns env acc
  rw [hstep]

lemma methodStep_congr {ts : TypeSys} {P Q : Program}
    (hds : ∀ r, Q.isDefStatic r = P.isDefStatic r)
    (cand rej : Finset TypeId) (m : Method) :
    methodStep ts Q cand rej m = methodStep ts P cand rej m := by
  unfold methodStep
  have hgen : isGeneratedEnumMethod ts Q cand rej m =
      isGeneratedEnumMethod ts P cand rej m := by
    unfold isGeneratedEnumMethod isEnumValues isEnumValueof
      isStaticMethodOnEnumClass
    rw [hds m.ref]
  by_cases hg : isGeneratedEnumMethod ts P cand rej m
  · rw [if_pos (hgen ▸ hg), if_pos hg]
  · rw [if_neg (fun hq => hg (hgen ▸ hq)), if_neg hg]
    by_cases hna : needAnalyze ts m cand (methodPreFilter ts cand rej m)
    · rw [if_pos hna, if_pos hna]
      cases m.code with
      | none => rfl
      | some c =>
          show (match genEnv m c with
            | none => none
            | some env0 => detectorRun ts Q cand m c (engineRun ts c env0)
                (methodPreFilter ts cand rej m)) =
            (match genEnv m c with
            | none => none
            | some env0 => detectorRun ts P cand m c (engineRun ts c env0)
                (methodPreFilter ts cand rej m))
          cases genEnv m c with
          | none => rfl
          | some env0 =>
              exact @detectorRun_congr ts P Q hds cand m c
                (engineRun ts c env0) (methodPreFilter ts cand rej m)
    · rw [if_neg hna, if_neg hna]

/-- Amended claim C3: the claimed order independence holds for programs in
which no method's contribution to the rejected set depends on the types
already rejected (each `methodStep` adds a fixed delta).  In general it
fails — see `order_independence_counterexample` — because the
generated-method skip list and the pre-analysis short-circuits consult the
shared rejected set. -/
theorem order_independence_amended (ts : TypeSys) (P Q : Program)
    (cand : Finset TypeId) (hperm : P.classes.Perm Q.classes)
    (hM : ∀ m ∈ P.allMethods, ∀ rej : Finset TypeId,
      methodStep ts P cand rej m = some (rej ∪ methodDelta ts P cand m)) :
    rejectUnsafeEnums ts P cand = rejectUnsafeEnums ts Q cand := by
  have hAM : P.allMethods.Perm Q.allMethods :=
    hperm.flatMap_right DexClass.methods
  have hAF : P.allFields.Perm Q.allFields :=
    hperm.flatMap_right DexClass.fields
  have hds : ∀ r, Q.isDefStatic r = P.isDefStatic r :=
    fun r => propext (isDefStatic_iff_of_perm hAM r)
  have hF : P.allFields.foldl (fieldStep ts cand) ∅ =
      Q.allFields.foldl (fieldStep ts cand) ∅ := by
    refine hAF.foldl_eq' ?_ ∅
    intro x _ y _ z
    rw [fieldStep_decomp ts cand (fieldStep ts cand z x) y,
      fieldStep_decomp ts cand z x,
      fieldStep_decomp ts cand (fieldStep ts cand z y) x,
      fieldStep_decomp ts cand z y]
    exact Finset.union_right_comm z _ _
  have hstepQP : (methodStep ts Q cand) = (methodStep ts P cand) := by
    funext rej m
    exact methodStep_congr hds cand rej m
  simp only [rejectUnsafeEnums, rejectedOf]
  rw [hstepQP, ← hF,
    foldlM_of_delta_perm (methodStep ts P cand) (methodDelta ts P cand)
      hAM hM (P.allFields.foldl (fieldStep ts cand) ∅)]

/-- Witness for the amended C3: a program with two (methodless) classes
holding one field each, in both orders. -/
theorem order_independence_amended_witness :
    rejectUnsafeEnums TS ⟨[⟨[⟨⟨40, "f", 20⟩, false⟩], []⟩, ⟨[], []⟩]⟩
        {20, 21} =
      rejectUnsafeEnums TS ⟨[⟨[], []⟩, ⟨[⟨⟨40, "f", 20⟩, false⟩], []⟩]⟩
        {20, 21} :=
  order_independence_amended TS _ _ {20, 21} (List.Perm.swap _ _ _)
    (by intro m hm; simp [Program.allMethods] at hm)
